import Mathlib

/-!
# Verification of the tarfs metadata index, archive builder and fuse adapter

Shallow embedding of the `tarfs` Go repository: the B-tree-backed
`MetadataStore` (`btreeStore.Get/Add/Entries`), the node types (`node`,
`dirNode`), the archive builder `FromReaderAt`, and the read-only fuse
adapter operations (`Open`, `GetAttr`, `checkPermissions`, `file.Read`).

Go machine integers are modelled as `Nat` (mode bits, uids) and `Int`
(offsets/sizes, which are `int64` in Go); Go strings are Lean `String`s
compared by the explicit lexicographic order `strLt` below (Go compares
strings byte-wise; UTF-8 byte order coincides with code-point order).
Pointer-linked nodes are modelled by an arena (`Heap`): node values hold
arena ids instead of pointers, and pointer mutation becomes arena update.
-/

namespace Tarfs

/-! ## String ordering and path helpers -/

/-- Lexicographic order on character lists; models Go's `<` on strings
(byte-wise lexicographic, which UTF-8 makes equal to code-point order). -/
def lexLt : List Char → List Char → Bool
  | [], [] => false
  | [], _ :: _ => true
  | _ :: _, [] => false
  | a :: as, b :: bs => if a < b then true else if b < a then false else lexLt as bs

/-- Go `string <` on Lean strings. -/
def strLt (a b : String) : Bool := lexLt a.data b.data

/-- `strings.Count(key, "/")`: number of `/` characters in the key. -/
def keyDepth (s : String) : Nat := s.data.countP (fun c => c == '/')

/-- `stringKey.Less` from the B-tree store: order first by number of path
separators (depth), then lexicographically. -/
def keyLess (a b : String) : Bool :=
  if keyDepth a < keyDepth b then true
  else if keyDepth a == keyDepth b then strLt a b
  else false

/-- Split a character list on `/` (the semantics of `strings.Split` with
a one-character separator). -/
def splitSlash : List Char → List (List Char)
  | [] => [[]]
  | c :: rest =>
    let r := splitSlash rest
    if c == '/' then [] :: r
    else
      match r with
      | [] => [[c]]
      | h :: t => (c :: h) :: t

/-- Join path components with `/` separators. -/
def joinSlash : List (List Char) → List Char
  | [] => []
  | [x] => x
  | x :: rest => x ++ '/' :: joinSlash rest

/-- `filepath.Clean` (unix separators): resolve `.`, `..` and duplicate
separators; empty cleans to `.`. -/
def cleanPath (path : String) : String :=
  if path.data = [] then "."
  else
    let rooted : Bool := path.data.head? == some '/'
    let comps := (splitSlash path.data).filter (fun c => !(c == []) && !(c == ['.']))
    let outs := comps.foldl
      (fun acc c =>
        if c = ['.', '.'] then
          if acc ≠ [] ∧ acc.getLast? ≠ some ['.', '.'] then acc.dropLast
          else if rooted then acc
          else acc ++ [c]
        else acc ++ [c]) ([] : List (List Char))
    let joined := joinSlash outs
    if rooted then String.mk ('/' :: joined)
    else if joined = [] then "."
    else String.mk joined

/-- `fuseNameToKey`: `filepath.Join("/", name)`, i.e. `Clean("/" + "/" + name)`. -/
def fuseNameToKey (name : String) : String :=
  cleanPath (String.mk ('/' :: '/' :: name.data))

/-- `headerNameEntry`: trim one leading `./` and one trailing `/`, map `.`
to the empty name, then turn the result into an absolute key. -/
def headerNameEntry (name : String) : String :=
  let l1 := match name.data with
            | '.' :: '/' :: rest => rest
            | l => l
  let l2 := if l1.getLast? = some '/' then l1.dropLast else l1
  let l3 := if l2 = ['.'] then [] else l2
  fuseNameToKey (String.mk l3)

/-- `filepath.Dir`: everything up to (and including) the final separator,
cleaned; no separator yields `.`. -/
def dirPathB (path : String) : String :=
  let pre := path.data.reverse.dropWhile (fun c => c != '/')
  cleanPath (String.mk pre.reverse)

/-- `filepath.Base`: strip trailing separators, then keep what follows the
final separator; empty input yields `.`, all-separator input yields `/`. -/
def baseNameB (s : String) : String :=
  if s = "" then "."
  else
    let l := s.data.reverse.dropWhile (fun c => c == '/')
    if l = [] then "/"
    else String.mk (l.takeWhile (fun c => c != '/')).reverse

/-! ## Data model: `StatT`, nodes, the arena heap -/

/-- `Owner`: the uid/gid pair stored for a node. -/
structure Owner where
  uid : Nat
  gid : Nat
deriving Repr, DecidableEq

/-- `StatT`: per-entry metadata. `mode` is the Go `os.FileMode` value
(`uint32`: type bits above bit 26, permission bits in the low 9 bits);
`ino` holds the data offset into the archive stream. Timestamps are Unix
seconds. -/
structure StatT where
  mode : Nat
  owner : Owner
  atime : Int
  mtime : Int
  ctime : Int
  ino : Int
  size : Int
deriving Repr, DecidableEq

/-- `os.ModeDir` (bit 31 of `os.FileMode`). -/
def MODE_DIR : Nat := 2147483648

/-- `os.ModeSymlink` (bit 27 of `os.FileMode`). -/
def MODE_SYMLINK : Nat := 134217728

/-- `os.FileMode.IsDir()`: the directory type bit is set. -/
def modeIsDir (m : Nat) : Bool := m &&& MODE_DIR != 0

/-- `os.FileMode.Perm()`: the low nine permission bits (`0o777`). -/
def modePerm (m : Nat) : Nat := m &&& 511

/-- `fuse.S_IFDIR` (0o40000). -/
def S_IFDIR : Nat := 16384
/-- `fuse.S_IFREG` (0o100000). -/
def S_IFREG : Nat := 32768
/-- `fuse.S_IFLNK` (0o120000). -/
def S_IFLNK : Nat := 40960

/-- One heap node. `isDirNode` is true when the Go value is a `*dirNode`
(which implements the `DirIndex` capability); `entries` holds the arena
ids of the children appended during ingestion (`dirNode.entries`).
Plain `*node` values have `isDirNode = false` and empty `entries`. -/
structure NodeData where
  name : String
  stat : StatT
  isDirNode : Bool
  entries : List Nat
deriving Repr, DecidableEq

/-- The zero `StatT`; models the nil `*StatT` a provisional placeholder
carries (`&node{name: ...}` with no stat). Go would nil-panic on any
dereference; no verified property dereferences an unmerged placeholder. -/
def nilStat : StatT :=
  { mode := 0, owner := ⟨0, 0⟩, atime := 0, mtime := 0, ctime := 0, ino := 0, size := 0 }

/-- Junk node returned for an out-of-range arena id; Go pointers are
always valid, so reachable states never hit this default. -/
def nilNode : NodeData :=
  { name := "", stat := nilStat, isDirNode := false, entries := [] }

/-- The node arena: models the pointer graph; ids are list positions. -/
abbrev Heap := List NodeData

/-- Dereference an arena id. -/
def heapGet (heap : Heap) (nid : Nat) : NodeData := heap.getD nid nilNode

/-- Write through an arena id (models in-place pointer mutation). -/
def heapSet (heap : Heap) (nid : Nat) (d : NodeData) : Heap := heap.set nid d

/-- Allocate a fresh node, returning the extended arena and the new id. -/
def heapAlloc (heap : Heap) (d : NodeData) : Heap × Nat := (heap ++ [d], heap.length)

/-! ## The B-tree store (`btreeStore`) -/

/-- The B-tree, as the sorted list of (key, arena id) pairs it holds,
ascending in `keyLess`. -/
abbrev Store := List (String × Nat)

/-- `btreeStore.Add` / `btree.ReplaceOrInsert`: insert in `keyLess`
order, replacing an item neither less nor greater (i.e. the equal key). -/
def storeAdd (st : Store) (key : String) (nid : Nat) : Store :=
  match st with
  | [] => [(key, nid)]
  | (k, v) :: rest =>
    if keyLess key k then (key, nid) :: (k, v) :: rest
    else if keyLess k key then (k, v) :: storeAdd rest key nid
    else (key, nid) :: rest

/-- `btreeStore.Get` / `btree.Get`: the item whose key is `Less`-equal to
the probe; `none` models Go's nil result for an absent key. -/
def storeGet (st : Store) (key : String) : Option Nat :=
  match st.find? (fun p => !keyLess p.1 key && !keyLess key p.1) with
  | some p => some p.2
  | none => none

/-- `dirNode.Entries`: copy of the accumulated children list, in
insertion order (the order the children's headers appeared). -/
def dirEntries (heap : Heap) (d : NodeData) : List NodeData :=
  d.entries.map (fun nid => heapGet heap nid)

/-- The item range visited by `AscendRange(sk, sk.key + "//")`: at or
after the directory's own key, strictly before the `//` sentinel. -/
def inScanRange (dirKey k : String) : Bool :=
  !keyLess k dirKey && keyLess k (dirKey ++ "//")

/-- The range-scan fallback inside `btreeStore.Entries`: ascend the
bounded range, skip the directory itself, keep items whose
`filepath.Dir` equals the queried key. -/
def scanEntries (heap : Heap) (st : Store) (key : String) : List NodeData :=
  (st.filter (fun p => inScanRange key p.1)).filterMap
    (fun p =>
      if p.1 = key then none
      else if dirPathB p.1 = key then some (heapGet heap p.2)
      else none)

/-- `btreeStore.Entries`. `none` models the two panics (absent key /
non-directory node); otherwise the `DirIndex` fast path is taken when the
stored node is a `*dirNode`, and the range scan otherwise. -/
def storeEntries (heap : Heap) (st : Store) (key : String) : Option (List NodeData) :=
  match storeGet st key with
  | none => none
  | some nid =>
    let d := heapGet heap nid
    if !modeIsDir d.stat.mode then none
    else if d.isDirNode then some (dirEntries heap d)
    else some (scanEntries heap st key)

/-! ## The fuse adapter (`server`) -/

/-- `fuse.Status` values the adapter produces. -/
inductive Status where
  | ok
  | enoent
  | eperm
  | eio
deriving Repr, DecidableEq

/-- The caller identity carried in `fuse.Context.Owner`. -/
structure Ctx where
  uid : Nat
  gid : Nat
deriving Repr, DecidableEq

/-- `checkPermissions`: allow when the other-class read bit (1<<2) is
set; else, when the caller's gid equals the node's gid, decide by the
group-class bit (1<<5); else, when the caller's uid equals the node's
uid, decide by the owner-class bit (1<<8); else deny. -/
def checkPermissions (stat : StatT) (ctx : Ctx) : Bool :=
  let perms := modePerm stat.mode
  if perms &&& 4 != 0 then true
  else if stat.owner.gid == ctx.gid then perms &&& 32 != 0
  else if stat.owner.uid == ctx.uid then perms &&& 256 != 0
  else false

/-- The tarfs server: populated store, node arena, and the archive byte
stream (`io.ReaderAt`) as the list of its bytes. -/
structure Server where
  heap : Heap
  store : Store
  stream : List Nat

/-- The handle `server.Open` builds: an `io.SectionReader` over the byte
range `[base, limit)` of the archive stream. -/
structure FileHandle where
  base : Int
  limit : Int
  name : String
deriving Repr, DecidableEq

/-- `server.Open`: look the path up; nil yields `ENOENT`; otherwise a
read-only handle over `[Inode(), Inode()+Size())`. No permission check. -/
def serverOpen (srv : Server) (name : String) (flags : Nat) (ctx : Ctx) :
    Option FileHandle × Status :=
  match storeGet srv.store (fuseNameToKey name) with
  | none => (none, Status.enoent)
  | some nid =>
    let f := heapGet srv.heap nid
    (some { base := f.stat.ino, limit := f.stat.ino + f.stat.size, name := f.name },
     Status.ok)

/-- The `fuse.Attr` record `server.GetAttr` synthesizes. -/
structure Attr where
  mtime : Int
  mode : Nat
  size : Int
  uid : Nat
  gid : Nat
deriving Repr, DecidableEq

/-- `server.GetAttr`: miss yields `ENOENT`; a failed permission check
yields `EPERM`; otherwise permission bits plus a type tag (directory,
else symlink, else regular file), size, mtime and owner. -/
def serverGetAttr (srv : Server) (name : String) (ctx : Ctx) :
    Option Attr × Status :=
  match storeGet srv.store (fuseNameToKey name) with
  | none => (none, Status.enoent)
  | some nid =>
    let fi := heapGet srv.heap nid
    if !checkPermissions fi.stat ctx then (none, Status.eperm)
    else
      let base := modePerm fi.stat.mode
      let m :=
        if modeIsDir fi.stat.mode then base ||| S_IFDIR
        else if fi.stat.mode &&& MODE_SYMLINK == MODE_SYMLINK then base ||| S_IFLNK
        else base ||| S_IFREG
      (some { mtime := fi.stat.mtime, mode := m, size := fi.stat.size,
              uid := fi.stat.owner.uid, gid := fi.stat.owner.gid },
       Status.ok)

/-! ## Positioned reads (`io.SectionReader`, `file.Read`) -/

/-- Errors a positioned read can report: clean end-of-data, or any other
I/O fault. -/
inductive IOErr where
  | eof
  | fault
deriving Repr, DecidableEq

/-- The underlying `io.ReaderAt` over the archive bytes (the semantics of
`bytes.Reader.ReadAt` / a file opened read-only): fill the buffer from
position `off`, report `EOF` on a short read, a fault on a negative
offset. Returns the buffer contents after the copy (bytes past the count
read keep their previous contents), the count, and the error. -/
def readerAt (stream : List Nat) (buf : List Nat) (off : Int) :
    List Nat × Nat × Option IOErr :=
  if off < 0 then (buf, 0, some IOErr.fault)
  else if (stream.length : Int) ≤ off then (buf, 0, some IOErr.eof)
  else
    let n := min buf.length (stream.length - off.toNat)
    let p := (stream.drop off.toNat).take n ++ buf.drop n
    (p, n, if n < buf.length then some IOErr.eof else none)

/-- `io.SectionReader.ReadAt` over `[base, limit)`: out-of-view offsets
are clean `EOF`; a buffer reaching past the view is clamped to the view
and a full read of the clamped buffer still reports `EOF`. -/
def sectionReadAt (stream : List Nat) (base limit : Int) (buf : List Nat) (off : Int) :
    List Nat × Nat × Option IOErr :=
  if off < 0 ∨ limit - base ≤ off then (buf, 0, some IOErr.eof)
  else
    let off2 := off + base
    let mx := limit - off2
    if (buf.length : Int) > mx then
      let r := readerAt stream (buf.take mx.toNat) off2
      let err := if r.2.2 = none then some IOErr.eof else r.2.2
      (r.1 ++ buf.drop mx.toNat, r.2.1, err)
    else readerAt stream buf off2

/-- What `file.Read` hands back to fuse: `ReadResultData(p)` carrying the
whole buffer, or the distinguished zero-length `eofReadResult`. -/
inductive ReadResult where
  | data (bytes : List Nat)
  | eofResult
deriving Repr, DecidableEq

/-- `file.Read`: a nil error yields the full buffer with `OK`; `EOF`
with no bytes delivered yields the distinguished empty result with `OK`,
and with bytes delivered yields the full buffer with `OK`; any other
fault yields `EIO` with no result. -/
def fileRead (stream : List Nat) (base limit : Int) (buf : List Nat) (off : Int) :
    Option ReadResult × Status :=
  let r := sectionReadAt stream base limit buf off
  match r.2.2 with
  | none => (some (ReadResult.data r.1), Status.ok)
  | some IOErr.eof =>
    if r.2.1 = 0 then (some ReadResult.eofResult, Status.ok)
    else (some (ReadResult.data r.1), Status.ok)
  | some IOErr.fault => (none, Status.eio)

/-! ## The archive builder (`FromReaderAt`) -/

/-- One tar entry as the builder consumes it: the raw header name, the
fields `fillStat` copies out of the header, and `pos`, the stream
position at which the entry's content begins (what `r.Seek` reports
right after the header is read). -/
structure TarEntry where
  name : String
  mode : Nat
  uid : Nat
  gid : Nat
  size : Int
  atime : Int
  mtime : Int
  ctime : Int
  pos : Int
deriving Repr, DecidableEq

/-- `fillStat` plus `stat.Ino = pos`. -/
def statOfEntry (e : TarEntry) : StatT :=
  { mode := e.mode, owner := ⟨e.uid, e.gid⟩, atime := e.atime, mtime := e.mtime,
    ctime := e.ctime, ino := e.pos, size := e.size }

/-- How ingestion can fail: the end-of-stream check over the
pending-parent set, or one of the two `.(*dirNode)` type assertions
(which would panic in Go). -/
inductive IngestError where
  | missingDirs (paths : List String)
  | notDirNode (key : String)
deriving Repr, DecidableEq

/-- Builder state: node arena, the store being populated, and
`missingDirs`, the pending-parent set (kept as an insertion-ordered
duplicate-free list). -/
structure IngestState where
  heap : Heap
  store : Store
  missing : List String
deriving Repr, DecidableEq

/-- Set-insert into the pending-parent list. -/
def setInsert (l : List String) (k : String) : List String :=
  if k ∈ l then l else l ++ [k]

/-- Set-delete from the pending-parent list. -/
def setErase (l : List String) (k : String) : List String :=
  l.filter (fun x => x ≠ k)

/-- The second half of the `FromReaderAt` loop body: link the freshly
inserted node `nid` into its parent directory — append to an existing
parent `dirNode` (panicking, modelled as an error, if the stored parent
is not a `dirNode`), or synthesize a provisional placeholder named after
the parent path's final component and record the parent path as
pending. -/
def linkParent (heap1 : Heap) (store1 : Store) (missing1 : List String)
    (key : String) (nid : Nat) : Except IngestError IngestState :=
  let parentKey := dirPathB key
  match storeGet store1 parentKey with
  | some pid =>
    let p := heapGet heap1 pid
    if !p.isDirNode then Except.error (IngestError.notDirNode parentKey)
    else
      Except.ok { heap := heapSet heap1 pid { p with entries := p.entries ++ [nid] },
                  store := storeAdd store1 parentKey pid,
                  missing := missing1 }
  | none =>
    let a := heapAlloc heap1
      { name := baseNameB parentKey, stat := nilStat, isDirNode := true, entries := [nid] }
    Except.ok { heap := a.1, store := storeAdd store1 parentKey a.2,
                missing := setInsert missing1 parentKey }

/-- The body of the `FromReaderAt` loop for one tar entry: build the
stat, canonicalize the name, merge into an existing `dirNode` or create
a fresh node, insert it, then link it into its parent via
`linkParent`. -/
def processEntry (s : IngestState) (e : TarEntry) : Except IngestError IngestState :=
  let stat := statOfEntry e
  let key := headerNameEntry e.name
  let step1 : Except IngestError (Heap × Nat × List String) :=
    if modeIsDir e.mode then
      match storeGet s.store key with
      | some oldId =>
        let old := heapGet s.heap oldId
        if !old.isDirNode then Except.error (IngestError.notDirNode key)
        else Except.ok (heapSet s.heap oldId { old with name := e.name, stat := stat },
                        oldId, setErase s.missing key)
      | none =>
        let a := heapAlloc s.heap { name := e.name, stat := stat, isDirNode := true, entries := [] }
        Except.ok (a.1, a.2, s.missing)
    else
      let a := heapAlloc s.heap { name := e.name, stat := stat, isDirNode := false, entries := [] }
      Except.ok (a.1, a.2, s.missing)
  match step1 with
  | Except.error err => Except.error err
  | Except.ok (heap1, nid, missing1) =>
    linkParent heap1 (storeAdd s.store key nid) missing1 key nid

/-- The synthetic root stat `FromReaderAt` seeds the index with:
mode `0755 | os.ModeDir`, owner = the effective uid/gid of the serving
process, the conventional root inode 2, size 4096. -/
def rootStat (euid egid : Nat) : StatT :=
  { mode := 493 + MODE_DIR, owner := ⟨euid, egid⟩, atime := 0, mtime := 0, ctime := 0,
    ino := 2, size := 4096 }

/-- The builder state before any archive entry is read: the arena holds
only the synthetic root `dirNode`, stored at `/`. -/
def initState (euid egid : Nat) : IngestState :=
  { heap := [{ name := "", stat := rootStat euid egid, isDirNode := true, entries := [] }],
    store := storeAdd [] ("/") 0,
    missing := [] }

/-- `FromReaderAt` on an already-parsed entry stream: seed the root, fold
the loop body over the entries, then fail if the pending-parent set is
non-empty, naming every outstanding path. -/
def fromEntries (euid egid : Nat) (entries : List TarEntry) :
    Except IngestError IngestState :=
  match entries.foldlM processEntry (initState euid egid) with
  | Except.error err => Except.error err
  | Except.ok s =>
    if s.missing.isEmpty then Except.ok s
    else Except.error (IngestError.missingDirs s.missing)

/-! ## Basic lemmas about the key order -/

theorem lexLt_irrefl : ∀ (l : List Char), lexLt l l = false
  | [] => rfl
  | a :: as => by
    unfold lexLt
    simp [lt_irrefl a, lexLt_irrefl as]

theorem lexLt_antisymm_eq : ∀ {a b : List Char},
    lexLt a b = false → lexLt b a = false → a = b
  | [], [], _, _ => rfl
  | [], _ :: _, h, _ => by simp [lexLt] at h
  | _ :: _, [], _, h' => by simp [lexLt] at h'
  | a :: as, b :: bs, h, h' => by
    unfold lexLt at h h'
    by_cases hab : a < b
    · simp [hab] at h
    · by_cases hba : b < a
      · simp [hab, hba] at h'
      · have hcb : a = b := le_antisymm (not_lt.mp hba) (not_lt.mp hab)
        subst hcb
        simp [hab] at h h'
        rw [lexLt_antisymm_eq h h']

theorem strLt_irrefl (s : String) : strLt s s = false :=
  lexLt_irrefl s.data

theorem keyLess_irrefl (k : String) : keyLess k k = false := by
  unfold keyLess
  simp [strLt_irrefl]

/-- Two keys that the B-tree's `Less` places in neither order are the
same string: key equality under `stringKey.Less` is string equality. -/
theorem keyLess_antisymm_eq {a b : String}
    (h : keyLess a b = false) (h' : keyLess b a = false) : a = b := by
  unfold keyLess at h h'
  by_cases hd : keyDepth a < keyDepth b
  · simp [hd] at h
  · by_cases hd' : keyDepth b < keyDepth a
    · simp [hd, hd'] at h'
    · have he : keyDepth a = keyDepth b := Nat.le_antisymm (Nat.not_lt.mp hd') (Nat.not_lt.mp hd)
      simp [hd, hd', he] at h h'
      have hdata : a.data = b.data := lexLt_antisymm_eq h h'
      cases a; cases b; exact congrArg String.mk hdata

/-! ## Lemmas about `storeAdd` and `storeGet` -/

theorem mem_storeAdd {st : Store} {key : String} {nid : Nat} {p : String × Nat}
    (h : p ∈ storeAdd st key nid) : p.1 = key ∨ p ∈ st := by
  induction st with
  | nil =>
    simp [storeAdd] at h
    simp [h]
  | cons q rest ih =>
    unfold storeAdd at h
    by_cases h1 : keyLess key q.1
    · simp [h1] at h
      rcases h with h | h | h
      · simp [h]
      · simp [h]
      · simp [h]
    · by_cases h2 : keyLess q.1 key
      · simp [h1, h2] at h
        rcases h with h | h
        · simp [h]
        · rcases ih h with h3 | h3
          · exact Or.inl h3
          · simp [h3]
      · simp [h1, h2] at h
        rcases h with h | h
        · simp [h]
        · simp [h]

theorem storeGet_eq_none_of_not_mem {st : Store} {key : String}
    (h : ∀ p ∈ st, p.1 ≠ key) : storeGet st key = none := by
  unfold storeGet
  have hf : st.find? (fun p => !keyLess p.1 key && !keyLess key p.1) = none := by
    rw [List.find?_eq_none]
    intro p hp
    have hne := h p hp
    intro hcontra
    simp only [Bool.and_eq_true, Bool.not_eq_true'] at hcontra
    exact hne (keyLess_antisymm_eq hcontra.1 hcontra.2)
  rw [hf]

/-- A store built by a sequence of `Add` operations. -/
def buildStore (ops : List (String × Nat)) : Store :=
  ops.foldl (fun acc p => storeAdd acc p.1 p.2) []

theorem mem_foldl_storeAdd :
    ∀ (ops : List (String × Nat)) (st : Store) (p : String × Nat),
      p ∈ ops.foldl (fun acc q => storeAdd acc q.1 q.2) st →
      p.1 ∈ ops.map Prod.fst ∨ p ∈ st
  | [], st, p, h => Or.inr h
  | q :: rest, st, p, h => by
    simp only [List.foldl_cons] at h
    rcases mem_foldl_storeAdd rest (storeAdd st q.1 q.2) p h with h1 | h1
    · simp [h1]
    · rcases mem_storeAdd h1 with h2 | h2
      · simp [h2]
      · simp [h2]

theorem mem_buildStore {ops : List (String × Nat)} {p : String × Nat}
    (h : p ∈ buildStore ops) : p.1 ∈ ops.map Prod.fst := by
  rcases mem_foldl_storeAdd ops [] p h with h1 | h1
  · exact h1
  · simp at h1

/-! ## C4: the permission cascade -/

/-- `C4`: for every caller identity and node owner/mode, `checkPermissions`
allows exactly when the other-class read bit (1<<2) of the permission
bits is set, or — failing that — the caller's gid matches and the
group-class bit (1<<5) is set, or — failing both — the caller's uid
matches and the owner-class bit (1<<8) is set; the classes are consulted
in the order other, group, owner. -/
theorem checkPermissions_cascade (stat : StatT) (ctx : Ctx) :
    checkPermissions stat ctx = true ↔
      (modePerm stat.mode &&& 4 ≠ 0
       ∨ (modePerm stat.mode &&& 4 = 0 ∧ stat.owner.gid = ctx.gid
            ∧ modePerm stat.mode &&& 32 ≠ 0)
       ∨ (modePerm stat.mode &&& 4 = 0 ∧ stat.owner.gid ≠ ctx.gid
            ∧ stat.owner.uid = ctx.uid ∧ modePerm stat.mode &&& 256 ≠ 0)) := by
  unfold checkPermissions
  by_cases h4 : modePerm stat.mode &&& 4 = 0
  · by_cases hg : stat.owner.gid = ctx.gid
    · simp [h4, hg]
    · by_cases hu : stat.owner.uid = ctx.uid
      · simp [h4, hg, hu]
      · simp [h4, hg, hu]
  · simp [h4]

/-! ## C9: `Open` performs no permission evaluation -/

/-- `C9`: `Open` never consults the caller identity or the flags — any
two calls on the same path agree — and it answers `ENOENT` exactly when
the canonical path is absent from the index, `OK` with a handle when it
is present, and never `EPERM`. -/
theorem open_no_permission_check (srv : Server) (name : String)
    (flags flags2 : Nat) (ctx ctx2 : Ctx) :
    serverOpen srv name flags ctx = serverOpen srv name flags2 ctx2
    ∧ ((serverOpen srv name flags ctx).2 = Status.enoent
        ↔ storeGet srv.store (fuseNameToKey name) = none)
    ∧ (∀ nid, storeGet srv.store (fuseNameToKey name) = some nid →
        (serverOpen srv name flags ctx).2 = Status.ok
        ∧ (serverOpen srv name flags ctx).1.isSome = true)
    ∧ (serverOpen srv name flags ctx).2 ≠ Status.eperm := by
  unfold serverOpen
  cases hget : storeGet srv.store (fuseNameToKey name) with
  | none => simp
  | some nid => simp

/-- A file node owned by uid 1000 / gid 1000 with permission bits 0400
(owner-read only), with content at byte range [512, 515). -/
def secretStat : StatT :=
  { mode := 256, owner := ⟨1000, 1000⟩, atime := 0, mtime := 0, ctime := 0,
    ino := 512, size := 3 }

/-- A concrete one-file server: root directory plus `/f` holding
`secretStat`. -/
def oneFileServer : Server :=
  { heap := [{ name := "", stat := rootStat 0 0, isDirNode := true, entries := [1] },
             { name := "f", stat := secretStat, isDirNode := false, entries := [] }],
    store := [(("/"), 0), (("/f"), 1)],
    stream := [] }

/-- Witness for `C9` at a concrete server: the hit path with a concrete
identity and flags, applied at the populated one-file server. -/
theorem open_no_permission_check_witness :
    (serverOpen oneFileServer ("f") 0 ⟨2000, 2000⟩).2 = Status.ok := by
  have h := open_no_permission_check oneFileServer ("f") 0 0 ⟨2000, 2000⟩ ⟨5, 6⟩
  exact (h.2.2.1 1 (by decide)).1

/-! ## C10: a short read still reports the whole buffer -/

theorem readerAt_length (stream : List Nat) (buf : List Nat) (off : Int) :
    (readerAt stream buf off).1.length = buf.length := by
  unfold readerAt
  by_cases h1 : off < 0
  · simp [h1]
  · by_cases h2 : (stream.length : Int) ≤ off
    · simp [h1, h2]
    · simp only [h1, h2, if_false, if_true, List.length_append, List.length_take,
        List.length_drop]
      omega

theorem sectionReadAt_length (stream : List Nat) (base limit : Int)
    (buf : List Nat) (off : Int) :
    (sectionReadAt stream base limit buf off).1.length = buf.length := by
  unfold sectionReadAt
  by_cases h1 : off < 0 ∨ limit - base ≤ off
  · rw [if_pos h1]
  · rw [if_neg h1]
    simp only []
    by_cases h2 : (buf.length : Int) > limit - (off + base)
    · simp only [h2, if_true, List.length_append, readerAt_length, List.length_take,
        List.length_drop]
      push_neg at h1
      omega
    · simp [h2, readerAt_length]

/-- `C10`: when a positioned read against the bounded view reports
end-of-data after delivering `n` bytes with `0 < n <` the buffer length
(a short read at the end of the file), `Read` reports success and hands
back `ReadResultData` over the entire caller-supplied buffer — whose
length is the full buffer length, not `n`. -/
theorem read_short_read_full_buffer (stream : List Nat) (base limit : Int)
    (buf : List Nat) (off : Int)
    (heof : (sectionReadAt stream base limit buf off).2.2 = some IOErr.eof)
    (hn : 0 < (sectionReadAt stream base limit buf off).2.1)
    (hlt : (sectionReadAt stream base limit buf off).2.1 < buf.length) :
    fileRead stream base limit buf off
      = (some (ReadResult.data (sectionReadAt stream base limit buf off).1), Status.ok)
    ∧ ((sectionReadAt stream base limit buf off).1).length = buf.length := by
  constructor
  · unfold fileRead
    simp only [heof, hn.ne', if_false]
  · exact sectionReadAt_length stream base limit buf off

/-- Witness for `C10`: a one-byte section read into a two-byte buffer
delivers one byte plus end-of-data, and the result spans both buffer
bytes. -/
theorem read_short_read_full_buffer_witness :
    fileRead [0, 1, 2, 3, 9, 8, 7, 0, 0, 0] 4 5 [5, 5] 0
      = (some (ReadResult.data [9, 5]), Status.ok) := by
  have h := read_short_read_full_buffer [0, 1, 2, 3, 9, 8, 7, 0, 0, 0] 4 5 [5, 5] 0
    (by rfl) (by decide) (by decide)
  exact h.1.trans (by rfl)

/-! ## C8: `Get` on an absent key, `Entries` panics -/

/-- `C8`: `Get` returns the absent result for any key never added by the
`Add` operations that built the store (and raises no error); `Entries`
panics — modelled as `none` — whenever the queried key is absent, and
whenever it is present but the stored node's mode lacks the directory
bit. -/
theorem get_absent_entries_panic :
    (∀ (ops : List (String × Nat)) (key : String),
        key ∉ ops.map Prod.fst → storeGet (buildStore ops) key = none)
    ∧ (∀ (heap : Heap) (st : Store) (key : String),
        storeGet st key = none → storeEntries heap st key = none)
    ∧ (∀ (heap : Heap) (st : Store) (key : String) (nid : Nat),
        storeGet st key = some nid →
        modeIsDir (heapGet heap nid).stat.mode = false →
        storeEntries heap st key = none) := by
  refine ⟨?_, ?_, ?_⟩
  · intro ops key hk
    apply storeGet_eq_none_of_not_mem
    intro p hp hcontra
    exact hk (hcontra ▸ mem_buildStore hp)
  · intro heap st key h
    unfold storeEntries
    rw [h]
  · intro heap st key nid h hdir
    unfold storeEntries
    rw [h]
    simp [hdir]

/-- Witness for `C8`: a never-added key reads back as `none`; `Entries`
on an absent key and on the non-directory node `/f` of the concrete
server both panic. -/
theorem get_absent_entries_panic_witness :
    storeGet (buildStore [(("/a"), 1)]) ("/b") = none
    ∧ storeEntries [] [] ("/x") = none
    ∧ storeEntries oneFileServer.heap oneFileServer.store ("/f") = none := by
  refine ⟨?_, ?_, ?_⟩
  · exact get_absent_entries_panic.1 [(("/a"), 1)] ("/b") (by decide)
  · exact get_absent_entries_panic.2.1 [] [] ("/x") (by rfl)
  · exact get_absent_entries_panic.2.2 oneFileServer.heap oneFileServer.store ("/f") 1
      (by decide) (by decide)

/-! ## C5: a non-empty pending-parent set aborts ingestion -/

/-- `C5`: if, once the archive stream is exhausted, the pending-parent
set is non-empty, ingestion fails with the malformed-archive error
carrying every still-outstanding path, and no filesystem state is
returned (the result is the error branch of `Except`). -/
theorem ingestion_missing_dirs_fail (euid egid : Nat) (entries : List TarEntry)
    (s : IngestState)
    (hfold : entries.foldlM processEntry (initState euid egid) = Except.ok s)
    (hmiss : s.missing ≠ []) :
    fromEntries euid egid entries = Except.error (IngestError.missingDirs s.missing) := by
  unfold fromEntries
  rw [hfold]
  have hempty : s.missing.isEmpty = false := by
    cases hm : s.missing with
    | nil => exact absurd hm hmiss
    | cons a l => rfl
  simp [hempty]

/-- The `foo/quux/hello` entry: a regular file (mode 0644) whose content
starts at stream offset 1536. -/
def helloEntry : TarEntry :=
  { name := "foo/quux/hello", mode := 420, uid := 0, gid := 0, size := 5,
    atime := 0, mtime := 0, ctime := 0, pos := 1536 }

/-- The builder state after the `foo/quux/hello`-only archive is
exhausted, before the pending-parent check. -/
def helloFoldState : IngestState :=
  (([helloEntry].foldlM processEntry (initState 0 0)).toOption).getD (initState 0 0)

/-- Witness for `C5`: the archive holding only `foo/quux/hello` leaves
`/foo/quux` pending, so ingestion fails naming it. -/
theorem ingestion_missing_dirs_fail_witness :
    fromEntries 0 0 [helloEntry]
      = Except.error (IngestError.missingDirs [("/foo/quux")]) := by
  have h := ingestion_missing_dirs_fail 0 0 [helloEntry] helloFoldState (by rfl) (by decide)
  exact h.trans (by rfl)

/-! ## Heap and store update lemmas -/

theorem heapGet_heapSet_self {heap : Heap} {nid : Nat} {d : NodeData}
    (h : nid < heap.length) : heapGet (heapSet heap nid d) nid = d := by
  simp [heapGet, heapSet, List.getD, List.getElem?_set_self h]

theorem heapGet_heapSet_ne {heap : Heap} {nid pid : Nat} {d : NodeData}
    (h : nid ≠ pid) : heapGet (heapSet heap nid d) pid = heapGet heap pid := by
  simp [heapGet, heapSet, List.getD, List.getElem?_set_ne h]

theorem heapGet_append {heap : Heap} {more : Heap} {nid : Nat}
    (h : nid < heap.length) : heapGet (heap ++ more) nid = heapGet heap nid := by
  simp [heapGet, List.getD, List.getElem?_append_left h]

theorem storeGet_storeAdd_self (st : Store) (key : String) (nid : Nat) :
    storeGet (storeAdd st key nid) key = some nid := by
  induction st with
  | nil =>
    simp [storeAdd, storeGet, List.find?, keyLess_irrefl]
  | cons q rest ih =>
    unfold storeAdd
    by_cases h1 : keyLess key q.1
    · simp [storeGet, List.find?, keyLess_irrefl, h1]
    · by_cases h2 : keyLess q.1 key
      · simp only [h1, h2, if_false, if_true]
        unfold storeGet at ih ⊢
        simp only [List.find?]
        have hq : (!keyLess q.1 key && !keyLess key q.1) = false := by
          simp [h2]
        rw [hq]
        exact ih
      · simp [storeGet, List.find?, keyLess_irrefl, h1, h2]

theorem storeGet_storeAdd_ne (st : Store) (key other : String) (nid : Nat)
    (h : other ≠ key) : storeGet (storeAdd st key nid) other = storeGet st other := by
  have hkey : (!keyLess key other && !keyLess other key) = false := by
    cases h1 : keyLess key other with
    | true => simp
    | false =>
      cases h2 : keyLess other key with
      | true => simp
      | false => exact absurd (keyLess_antisymm_eq h2 h1) h
  induction st with
  | nil => simp [storeAdd, storeGet, List.find?, hkey]
  | cons q rest ih =>
    unfold storeAdd
    by_cases h1 : keyLess key q.1
    · simp only [if_pos h1]
      unfold storeGet
      simp only [List.find?, hkey]
    · by_cases h2 : keyLess q.1 key
      · simp only [h1, h2, if_false, if_true]
        unfold storeGet at ih ⊢
        simp only [List.find?]
        cases hq : (!keyLess q.1 other && !keyLess other q.1) with
        | true => rfl
        | false => exact ih
      · simp only [h1, h2, if_false]
        have heq : key = q.1 := keyLess_antisymm_eq (by simpa using h1) (by simpa using h2)
        unfold storeGet
        simp only [List.find?, hkey]
        have hq : (!keyLess q.1 other && !keyLess other q.1) = false := by
          rw [← heq]; exact hkey
        rw [hq]

/-! ## C6: the open/read round trip over the bounded view -/

/-- A concrete server whose single file `f` has three content bytes
`[9, 8, 7]` at byte range [4, 7) of a ten-byte archive stream. -/
def threeByteServer : Server :=
  { heap := [{ name := "", stat := rootStat 0 0, isDirNode := true, entries := [1] },
             { name := "f",
               stat := { mode := 420, owner := ⟨0, 0⟩, atime := 0, mtime := 0,
                         ctime := 0, ino := 4, size := 3 },
               isDirNode := false, entries := [] }],
    store := [(("/"), 0), (("/f"), 1)],
    stream := [0, 1, 2, 3, 9, 8, 7, 0, 0, 0] }

theorem sectionReadAt_exact (stream : List Nat) (buf : List Nat) (off : Int) (N : Nat)
    (hbuf : buf.length = N) (hpos : 0 < N) (hoff : 0 ≤ off)
    (hbound : off.toNat + N ≤ stream.length) :
    sectionReadAt stream off (off + N) buf 0
      = ((stream.drop off.toNat).take N, N, none) := by
  unfold sectionReadAt
  rw [if_neg (by omega)]
  simp only [zero_add]
  rw [if_neg (by omega)]
  unfold readerAt
  rw [if_neg (by omega), if_neg (by omega)]
  have hmin : min buf.length (stream.length - off.toNat) = N := by omega
  simp only [hmin]
  rw [if_neg (by omega)]
  subst hbuf
  simp [List.drop_length]

theorem sectionReadAt_past_end (stream : List Nat) (buf : List Nat) (off : Int) (N : Nat) :
    sectionReadAt stream off (off + N) buf N = (buf, 0, some IOErr.eof) := by
  unfold sectionReadAt
  rw [if_pos (by omega)]

/-- `C6`: for a file node whose stat records data offset `off` and size
`N` (with the content inside the archive stream), `Open` yields an `OK`
handle over exactly the byte range `[off, off + N)`; reading `N` bytes
at handle offset 0 yields precisely the `N` content bytes with `OK`, and
a further read at offset `N` yields the distinguished zero-length
end-of-data result, also with `OK`. -/
theorem open_read_round_trip (srv : Server) (name : String) (flags : Nat) (ctx : Ctx)
    (nid : Nat) (N : Nat) (off : Int) (buf : List Nat)
    (hget : storeGet srv.store (fuseNameToKey name) = some nid)
    (hino : (heapGet srv.heap nid).stat.ino = off)
    (hsize : (heapGet srv.heap nid).stat.size = (N : Int))
    (hoff : 0 ≤ off)
    (hbound : off.toNat + N ≤ srv.stream.length)
    (hpos : 0 < N)
    (hbuf : buf.length = N) :
    serverOpen srv name flags ctx
      = (some { base := off, limit := off + N, name := (heapGet srv.heap nid).name },
         Status.ok)
    ∧ fileRead srv.stream off (off + N) buf 0
      = (some (ReadResult.data ((srv.stream.drop off.toNat).take N)), Status.ok)
    ∧ fileRead srv.stream off (off + N) buf (N : Int)
      = (some ReadResult.eofResult, Status.ok) := by
  refine ⟨?_, ?_, ?_⟩
  · unfold serverOpen
    rw [hget]
    simp [hino, hsize]
  · unfold fileRead
    simp only [sectionReadAt_exact srv.stream buf off N hbuf hpos hoff hbound]
  · unfold fileRead
    simp only [sectionReadAt_past_end srv.stream buf off N]
    rfl

/-- Witness for `C6`: the concrete three-byte file at range [4, 7) of a
ten-byte archive stream. -/
theorem open_read_round_trip_witness :
    serverOpen threeByteServer ("f") 0 ⟨0, 0⟩
      = (some { base := 4, limit := 7, name := "f" }, Status.ok)
    ∧ fileRead threeByteServer.stream 4 7 [5, 5, 5] 0
      = (some (ReadResult.data [9, 8, 7]), Status.ok)
    ∧ fileRead threeByteServer.stream 4 7 [5, 5, 5] 3
      = (some ReadResult.eofResult, Status.ok) := by
  have h := open_read_round_trip threeByteServer ("f") 0 ⟨0, 0⟩ 1 3 4 [5, 5, 5]
    (by decide) (by decide) (by decide) (by decide) (by decide) (by decide) (by decide)
  refine ⟨h.1.trans (by rfl), h.2.1.trans (by rfl), h.2.2⟩

/-! ## C2: the owner-read-only permission scenario -/

/-- Counterexample to `C2` as stated: on the concrete server whose file
`/f` is owned by uid 1000 / gid 1000 with permission bits 0400, the
attribute lookup DENIES the caller with uid 1000 and gid 1000 — the
group class intercepts the decision before the owner class is consulted,
so "allow every caller with uid 1000 regardless of gid" is false. -/
theorem perm_owner_gid_denied_counterexample :
    serverGetAttr oneFileServer ("f") ⟨1000, 1000⟩ = (none, Status.eperm) := by
  decide

/-- `checkPermissions` on a stat whose permission bits are exactly 0400
and whose owner is uid 1000 / gid 1000: the caller is allowed exactly
when their gid differs from 1000 and their uid equals 1000. -/
theorem checkPermissions_owner_read_only (stat : StatT) (ctx : Ctx)
    (hperm : modePerm stat.mode = 256) (howner : stat.owner = ⟨1000, 1000⟩) :
    checkPermissions stat ctx = (decide (ctx.gid ≠ 1000) && decide (ctx.uid = 1000)) := by
  unfold checkPermissions
  rw [hperm, howner]
  have h4 : ((256 : Nat) &&& 4 != 0) = false := by decide
  have h32 : ((256 : Nat) &&& 32 != 0) = false := by decide
  have h256 : ((256 : Nat) &&& 256 != 0) = true := by decide
  by_cases hg : ctx.gid = 1000
  · simp [hg, h4, h32]
  · by_cases hu : ctx.uid = 1000
    · simp [hg, hu, h4, h256, Ne.symm hg]
    · simp [hg, hu, h4, Ne.symm hg, Ne.symm hu]

/-- `C2` amended: for a file owned by uid 1000 / gid 1000 with
permission bits 0400, the attribute lookup denies the caller
uid 2000 / gid 2000; it allows a caller with uid 1000 only when that
caller's gid differs from 1000, and denies the caller
uid 1000 / gid 1000 (the group class intercepts); `Open` performs no
permission evaluation at all and returns `OK` for every caller. -/
theorem perm_owner_read_only (srv : Server) (name : String) (nid : Nat)
    (hget : storeGet srv.store (fuseNameToKey name) = some nid)
    (hperm : modePerm (heapGet srv.heap nid).stat.mode = 256)
    (howner : (heapGet srv.heap nid).stat.owner = ⟨1000, 1000⟩) :
    serverGetAttr srv name ⟨2000, 2000⟩ = (none, Status.eperm)
    ∧ (∀ g : Nat, g ≠ 1000 → (serverGetAttr srv name ⟨1000, g⟩).2 = Status.ok)
    ∧ serverGetAttr srv name ⟨1000, 1000⟩ = (none, Status.eperm)
    ∧ (∀ (flags : Nat) (ctx : Ctx), (serverOpen srv name flags ctx).2 = Status.ok) := by
  refine ⟨?_, ?_, ?_, ?_⟩
  · unfold serverGetAttr
    rw [hget]
    simp only []
    rw [checkPermissions_owner_read_only _ _ hperm howner]
    simp
  · intro g hg
    unfold serverGetAttr
    rw [hget]
    simp only []
    rw [checkPermissions_owner_read_only _ _ hperm howner]
    simp [hg]
  · unfold serverGetAttr
    rw [hget]
    simp only []
    rw [checkPermissions_owner_read_only _ _ hperm howner]
    simp
  · intro flags ctx
    unfold serverOpen
    rw [hget]

/-- Witness for the amended `C2` on the concrete server: uid 2000/gid
2000 denied, uid 1000 with gid 5 allowed, uid 1000 with gid 1000 denied,
and `Open` succeeds for the uid 2000 caller. -/
theorem perm_owner_read_only_witness :
    serverGetAttr oneFileServer ("f") ⟨2000, 2000⟩ = (none, Status.eperm)
    ∧ (serverGetAttr oneFileServer ("f") ⟨1000, 5⟩).2 = Status.ok
    ∧ serverGetAttr oneFileServer ("f") ⟨1000, 1000⟩ = (none, Status.eperm)
    ∧ (serverOpen oneFileServer ("f") 3 ⟨2000, 2000⟩).2 = Status.ok := by
  have h := perm_owner_read_only oneFileServer ("f") 1 (by decide) (by decide) (by decide)
  exact ⟨h.1, h.2.1 5 (by decide), h.2.2.1, h.2.2.2 3 ⟨2000, 2000⟩⟩

/-! ## C3: implicit parent directories are NOT fully synthesized -/

/-- Counterexample to `C3` as stated: ingesting the archive whose only
entry is `foo/quux/hello` (no `foo` or `foo/quux` directory headers)
does NOT succeed — `FromReaderAt` returns an error, so no listings
exist. -/
theorem implicit_parents_counterexample :
    (fromEntries 0 0 [helloEntry]).isOk = false := by
  rfl

/-- `C3` amended: on that archive, ingestion synthesizes a provisional
placeholder only for the immediate parent `/foo/quux` (holding `hello`
as its child) and records it as pending; `/foo` is never created and
nothing is linked into the root; since no header ever defines
`/foo/quux`, ingestion fails with the missing-directory-entries error
naming `/foo/quux`, and no filesystem is returned. -/
theorem implicit_parents_amended :
    fromEntries 0 0 [helloEntry]
        = Except.error (IngestError.missingDirs [("/foo/quux")])
    ∧ storeGet helloFoldState.store ("/foo/quux") = some 2
    ∧ (heapGet helloFoldState.heap 2).isDirNode = true
    ∧ (heapGet helloFoldState.heap 2).entries = [1]
    ∧ (heapGet helloFoldState.heap 1).name = ("foo/quux/hello")
    ∧ storeGet helloFoldState.store ("/foo") = none
    ∧ storeEntries helloFoldState.heap helloFoldState.store ("/")
        = some [] := by
  refine ⟨rfl, by decide, by decide, by decide, by decide, by decide, by decide⟩

/-! ## C7: directory merge preserves accumulated children -/

theorem not_mem_setErase (l : List String) (k : String) : k ∉ setErase l k := by
  intro h
  simp [setErase, List.mem_filter] at h

theorem not_mem_setInsert {l : List String} {k p : String}
    (h1 : k ∉ l) (h2 : k ≠ p) : k ∉ setInsert l p := by
  unfold setInsert
  by_cases hp : p ∈ l
  · simpa [hp] using h1
  · simp only [hp, if_false, List.mem_append, List.mem_singleton]
    intro h
    rcases h with h | h
    · exact h1 h
    · exact h2 h

/-- The side condition `C7` needs about the parent lookup the loop body
performs after the merge: whatever node the store yields for the merged
directory's parent key is either the merged node itself or a `dirNode`
(so the parent-link type assertion cannot panic). -/
def parentOkB (s : IngestState) (key : String) (nid : Nat) : Bool :=
  match storeGet (storeAdd s.store key nid) (dirPathB key) with
  | some pid => pid == nid || (heapGet s.heap pid).isDirNode
  | none => true

/-- What `linkParent` does to the freshly inserted node: it stays bound
to its key, keeps its arena record except for possibly appending to its
children list, and its key is not added to the pending-parent set. -/
theorem linkParent_merge (heap1 : Heap) (store1 : Store) (missing1 : List String)
    (key : String) (nid : Nat)
    (hvalid : nid < heap1.length)
    (hkey : storeGet store1 key = some nid)
    (hparent : ∀ pid, storeGet store1 (dirPathB key) = some pid →
        (heapGet heap1 pid).isDirNode = true) :
    ∃ s2, linkParent heap1 store1 missing1 key nid = Except.ok s2
      ∧ storeGet s2.store key = some nid
      ∧ (∃ t, heapGet s2.heap nid
            = { heapGet heap1 nid with entries := (heapGet heap1 nid).entries ++ t })
      ∧ (key ∉ missing1 → key ∉ s2.missing) := by
  unfold linkParent
  cases hp : storeGet store1 (dirPathB key) with
  | some pid =>
    have hpdir := hparent pid hp
    simp only [hp, hpdir, Bool.not_true, Bool.false_eq_true, if_false]
    refine ⟨_, rfl, ?_, ?_, ?_⟩
    · simp only []
      by_cases hpk : dirPathB key = key
      · rw [hpk, storeGet_storeAdd_self]
        rw [hpk, hkey] at hp
        exact congrArg some (Option.some.inj hp).symm
      · rw [storeGet_storeAdd_ne _ _ _ _ (fun h => hpk h.symm)]
        exact hkey
    · simp only []
      by_cases hpn : pid = nid
      · subst hpn
        refine ⟨[pid], ?_⟩
        rw [heapGet_heapSet_self hvalid]
        simp [hpdir]
      · refine ⟨[], ?_⟩
        rw [heapGet_heapSet_ne hpn]
        simp
    · exact fun h => h
  | none =>
    have hne : key ≠ dirPathB key := by
      intro h
      rw [← h, hkey] at hp
      exact Option.noConfusion hp
    simp only [hp, heapAlloc]
    refine ⟨_, rfl, ?_, ?_, ?_⟩
    · simp only []
      rw [storeGet_storeAdd_ne _ _ _ _ hne]
      exact hkey
    · refine ⟨[], ?_⟩
      simp only []
      rw [heapGet_append hvalid]
      simp
    · exact fun h => not_mem_setInsert h hne

/-- `C7`: when the archive entry is a directory whose canonical path is
already stored as a `dirNode` (a provisional placeholder, or the
synthetic root), processing the entry is a merge — the node keeps its
arena identity and its accumulated children list (the old list is a
prefix of the new one), its stat is replaced wholesale by the one built
from the archive entry, its name is replaced by the raw header name, it
remains a `dirNode`, and its path is no longer in the pending-parent
set. -/
theorem dir_merge_preserves_children (s : IngestState) (e : TarEntry) (nid : Nat)
    (hdir : modeIsDir e.mode = true)
    (hget : storeGet s.store (headerNameEntry e.name) = some nid)
    (holddir : (heapGet s.heap nid).isDirNode = true)
    (hvalid : nid < s.heap.length)
    (hparent : parentOkB s (headerNameEntry e.name) nid = true) :
    ∃ s2, processEntry s e = Except.ok s2
      ∧ storeGet s2.store (headerNameEntry e.name) = some nid
      ∧ (heapGet s2.heap nid).stat = statOfEntry e
      ∧ (heapGet s2.heap nid).name = e.name
      ∧ (heapGet s2.heap nid).isDirNode = true
      ∧ (∃ t, (heapGet s2.heap nid).entries = (heapGet s.heap nid).entries ++ t)
      ∧ headerNameEntry e.name ∉ s2.missing := by
  unfold processEntry
  simp only [hdir, if_true, hget, holddir, Bool.not_true, Bool.false_eq_true, if_false]
  have hvalid1 : nid < (heapSet s.heap nid
      { name := e.name, stat := statOfEntry e, isDirNode := true,
        entries := (heapGet s.heap nid).entries }).length := by
    simpa [heapSet] using hvalid
  have hm : heapGet (heapSet s.heap nid
      { name := e.name, stat := statOfEntry e, isDirNode := true,
        entries := (heapGet s.heap nid).entries }) nid
      = { name := e.name, stat := statOfEntry e, isDirNode := true,
          entries := (heapGet s.heap nid).entries } :=
    heapGet_heapSet_self hvalid
  have hkey1 : storeGet (storeAdd s.store (headerNameEntry e.name) nid)
      (headerNameEntry e.name) = some nid :=
    storeGet_storeAdd_self s.store (headerNameEntry e.name) nid
  have hparent1 : ∀ pid, storeGet (storeAdd s.store (headerNameEntry e.name) nid)
      (dirPathB (headerNameEntry e.name)) = some pid →
      (heapGet (heapSet s.heap nid
        { name := e.name, stat := statOfEntry e, isDirNode := true,
          entries := (heapGet s.heap nid).entries }) pid).isDirNode = true := by
    intro pid hp
    by_cases hpn : pid = nid
    · subst hpn
      rw [hm]
    · rw [heapGet_heapSet_ne (fun h => hpn h.symm)]
      unfold parentOkB at hparent
      rw [hp] at hparent
      simpa [hpn] using hparent
  obtain ⟨s2, heq, hkey2, ⟨t, hent⟩, hmiss2⟩ :=
    linkParent_merge _ _ (setErase s.missing (headerNameEntry e.name))
      (headerNameEntry e.name) nid hvalid1 hkey1 hparent1
  refine ⟨s2, heq, hkey2, ?_, ?_, ?_, ?_, ?_⟩
  · rw [hent, hm]
  · rw [hent, hm]
  · rw [hent, hm]
  · rw [hent, hm]
    exact ⟨t, rfl⟩
  · exact hmiss2 (not_mem_setErase s.missing (headerNameEntry e.name))

/-- The one-file archive entry `a` used by the `C7` witness. -/
def aEntry : TarEntry :=
  { name := "a", mode := 420, uid := 0, gid := 0, size := 1,
    atime := 0, mtime := 0, ctime := 0, pos := 512 }

/-- An explicit root directory header (`./`, mode 0700 plus the
directory bit), appearing after `a` in the archive. -/
def rootEntry : TarEntry :=
  { name := "./", mode := 448 + MODE_DIR, uid := 5, gid := 6, size := 0,
    atime := 0, mtime := 0, ctime := 0, pos := 1024 }

/-- Builder state after ingesting `a`, before the explicit root header:
the synthetic root is a `dirNode` with the child `a` already attached. -/
def c7State : IngestState :=
  (([aEntry].foldlM processEntry (initState 7 7)).toOption).getD (initState 7 7)

/-- Witness for `C7`: the archive defines the root explicitly after `a`
was already attached to the synthetic root; the merge keeps the root's
arena slot and its accumulated children and replaces its metadata. -/
theorem dir_merge_preserves_children_witness :
    ∃ s2, processEntry c7State rootEntry = Except.ok s2
      ∧ storeGet s2.store (headerNameEntry rootEntry.name) = some 0
      ∧ (heapGet s2.heap 0).stat = statOfEntry rootEntry
      ∧ (heapGet s2.heap 0).name = rootEntry.name
      ∧ (heapGet s2.heap 0).isDirNode = true
      ∧ (∃ t, (heapGet s2.heap 0).entries = (heapGet c7State.heap 0).entries ++ t)
      ∧ headerNameEntry rootEntry.name ∉ s2.missing :=
  dir_merge_preserves_children c7State rootEntry 0 (by decide) (by decide) (by decide)
    (by decide) (by decide)

/-! ## C1: ordered child enumeration — `DirIndex` fast path vs range scan -/

/-- A regular-file entry named `b`, appearing before `a` in the
counterexample archive. -/
def bEntry : TarEntry :=
  { name := "b", mode := 420, uid := 0, gid := 0, size := 1,
    atime := 0, mtime := 0, ctime := 0, pos := 512 }

/-- Counterexample to `C1` as stated: ingesting the archive whose
entries appear in the order `b`, `a` yields a root `dirNode` whose
`DirIndex` fast path lists `b` before `a` (insertion order, not sorted
ascending), while the range-scan fallback over the same populated index
lists `a` before `b`; the two paths disagree and the fast path is not
sorted by name. -/
theorem entries_sorted_counterexample :
    (fromEntries 40 40 [bEntry, aEntry]).map (fun s =>
      ((storeEntries s.heap s.store ("/")).map (List.map NodeData.name),
       (scanEntries s.heap s.store ("/")).map NodeData.name))
      = Except.ok (some [("b"), ("a")], [("a"), ("b")]) := rfl

theorem lexLt_append_left : ∀ (pre a b : List Char), lexLt (pre ++ a) (pre ++ b) = lexLt a b
  | [], _, _ => rfl
  | x :: xs, a, b => by
    show (if x < x then true else if x < x then false else lexLt (xs ++ a) (xs ++ b))
        = lexLt a b
    rw [if_neg (lt_irrefl x), if_neg (lt_irrefl x)]
    exact lexLt_append_left xs a b

theorem keyDepth_append (a b : String) : keyDepth (a ++ b) = keyDepth a + keyDepth b := by
  unfold keyDepth
  rw [String.data_append, List.countP_append]

theorem keyDepth_eq_zero_of_no_slash {c : String}
    (h : c.data.all (fun ch => ch != '/') = true) : keyDepth c = 0 := by
  unfold keyDepth
  rw [List.countP_eq_zero]
  intro a ha
  have hne := List.all_eq_true.mp h a ha
  simpa using hne

/-- The prefix every direct-child key of directory `D` extends: `D`
itself for the root, otherwise `D` followed by a separator. -/
def childStem (D : String) : String := if D = "/" then D else D ++ "/"

theorem keyDepth_childStem_add (D c : String)
    (h : c.data.all (fun ch => ch != '/') = true) :
    keyDepth (childStem D ++ c) = keyDepth (childStem D) := by
  rw [keyDepth_append, keyDepth_eq_zero_of_no_slash h]
  rfl

theorem keyDepth_sentinel (D : String) : keyDepth (D ++ "//") = keyDepth D + 2 := by
  rw [keyDepth_append]
  rfl

/-- The directory's own key is inside the `AscendRange` bounds (the scan
then skips it explicitly). -/
theorem self_inScanRange (D : String) : inScanRange D D = true := by
  unfold inScanRange
  rw [Bool.and_eq_true, Bool.not_eq_true']
  refine ⟨keyLess_irrefl D, ?_⟩
  unfold keyLess
  rw [keyDepth_sentinel]
  rw [if_pos (by omega)]

/-- Every key of the form `childStem D ++ c` with `c` a nonempty
slash-free name lies inside the `AscendRange` bounds: the `//` sentinel
never clips a direct child. -/
theorem child_inScanRange (D c : String) (hc : c.data ≠ [])
    (hcs : c.data.all (fun ch => ch != '/') = true) :
    inScanRange D (childStem D ++ c) = true := by
  have hdep : keyDepth (childStem D ++ c) = keyDepth (childStem D) :=
    keyDepth_childStem_add D c hcs
  unfold inScanRange
  rw [Bool.and_eq_true, Bool.not_eq_true']
  by_cases hD : D = "/"
  · subst hD
    have hstem : childStem ("/") = ("/") := rfl
    rw [hstem] at hdep
    rw [hstem]
    constructor
    · unfold keyLess
      rw [hdep]
      rw [if_neg (lt_irrefl _), if_pos (beq_self_eq_true _)]
      unfold strLt
      rw [String.data_append]
      cases hcd : c.data with
      | nil => exact absurd hcd hc
      | cons x xs =>
        show lexLt ('/' :: (x :: xs)) ['/'] = false
        unfold lexLt
        rw [if_neg (lt_irrefl _), if_neg (lt_irrefl _)]
        rfl
    · unfold keyLess
      rw [hdep, keyDepth_sentinel]
      rw [if_pos (by omega)]
  · have hstem : childStem D = D ++ "/" := if_neg hD
    rw [hstem] at hdep
    have hdep3 : keyDepth (D ++ "/") = keyDepth D + 1 := by
      rw [keyDepth_append]
      rfl
    rw [hstem]
    constructor
    · unfold keyLess
      rw [hdep, hdep3]
      rw [if_neg (by omega), if_neg (by simp)]
    · unfold keyLess
      rw [hdep, hdep3, keyDepth_sentinel]
      rw [if_pos (by omega)]

/-- The direct children of `D` present in the store, in store order: the
pairs that are not `D` itself and whose `filepath.Dir` is `D`. -/
def childPairs (st : Store) (D : String) : Store :=
  st.filter (fun p => !(p.1 == D) && (dirPathB p.1 == D))

/-- The well-formedness the amended `C1` assumes of the populated index:
every stored key whose canonical parent is `D` (other than `D` itself)
is `D`'s stem followed by its own nonempty, slash-free base name. -/
def childKeysWF (st : Store) (D : String) : Prop :=
  ∀ p ∈ st, p.1 ≠ D → dirPathB p.1 = D →
    p.1 = childStem D ++ baseNameB p.1 ∧ (baseNameB p.1).data ≠ []
      ∧ (baseNameB p.1).data.all (fun ch => ch != '/') = true

instance (st : Store) (D : String) : Decidable (childKeysWF st D) := by
  unfold childKeysWF
  infer_instance

/-- The range-scan fallback returns exactly the direct children of `D`
present in the store, in store order: the `//` sentinel clips none of
them, the directory itself is skipped, and every other candidate is
rejected by the parent-equality filter. -/
theorem scanEntries_children (heap : Heap) (st : Store) (D : String)
    (hform : childKeysWF st D) :
    scanEntries heap st D = (childPairs st D).map (fun p => heapGet heap p.2) := by
  induction st with
  | nil => rfl
  | cons p rest ih =>
    have hrest : childKeysWF rest D := fun q hq => hform q (List.mem_cons_of_mem p hq)
    have ihr := ih hrest
    by_cases h1 : p.1 = D
    · have hself : inScanRange D p.1 = true := by
        rw [h1]
        exact self_inScanRange D
      unfold scanEntries childPairs at ihr ⊢
      rw [List.filter_cons, if_pos hself, List.filterMap_cons, List.filter_cons]
      rw [if_pos h1]
      rw [if_neg (by simp [h1])]
      exact ihr
    · by_cases h2 : dirPathB p.1 = D
      · obtain ⟨hp1, hcne, hcall⟩ := hform p (List.mem_cons_self p rest) h1 h2
        have hin : inScanRange D p.1 = true := by
          have hr := child_inScanRange D (baseNameB p.1) hcne hcall
          rw [← hp1] at hr
          exact hr
        unfold scanEntries childPairs at ihr ⊢
        rw [List.filter_cons, if_pos hin, List.filterMap_cons, List.filter_cons]
        rw [if_neg h1, if_pos h2]
        rw [if_pos (by simp [h1, h2])]
        rw [List.map_cons]
        exact congrArg _ ihr
      · unfold scanEntries childPairs at ihr ⊢
        cases hin : inScanRange D p.1 with
        | true =>
          rw [List.filter_cons, if_pos hin, List.filterMap_cons]
          rw [if_neg h1, if_neg h2]
          rw [List.filter_cons, if_neg (by simp [h2])]
          exact ihr
        | false =>
          rw [List.filter_cons, if_neg (by simp [hin]), List.filter_cons]
          rw [if_neg (by simp [h2])]
          exact ihr

theorem keyLess_child_strLt {D c₁ c₂ : String}
    (h1 : c₁.data.all (fun ch => ch != '/') = true)
    (h2 : c₂.data.all (fun ch => ch != '/') = true)
    (h : keyLess (childStem D ++ c₁) (childStem D ++ c₂) = true) :
    strLt c₁ c₂ = true := by
  unfold keyLess at h
  rw [keyDepth_childStem_add D c₁ h1, keyDepth_childStem_add D c₂ h2] at h
  rw [if_neg (lt_irrefl _), if_pos (beq_self_eq_true _)] at h
  unfold strLt at h ⊢
  rw [String.data_append, String.data_append, lexLt_append_left] at h
  exact h

/-- In a `keyLess`-sorted store, the direct children of `D` are sorted
ascending by their base names. -/
theorem childPairs_names_sorted (st : Store) (D : String)
    (hsort : List.Pairwise (fun p q : String × Nat => keyLess p.1 q.1 = true) st)
    (hform : childKeysWF st D) :
    List.Pairwise (fun a b => strLt a b = true)
      ((childPairs st D).map (fun p => baseNameB p.1)) := by
  rw [List.pairwise_map]
  have hcp : List.Pairwise (fun p q : String × Nat => keyLess p.1 q.1 = true)
      (childPairs st D) := hsort.filter _
  refine hcp.imp_of_mem ?_
  intro p q hp hq hkey
  have hpmem : p ∈ st := List.mem_of_mem_filter hp
  have hqmem : q ∈ st := List.mem_of_mem_filter hq
  have hpcond := (List.mem_filter.mp hp).2
  have hqcond := (List.mem_filter.mp hq).2
  simp only [Bool.and_eq_true, Bool.not_eq_true', beq_iff_eq, beq_eq_false_iff_ne] at hpcond hqcond
  obtain ⟨hp1, _, hpall⟩ := hform p hpmem hpcond.1 hpcond.2
  obtain ⟨hq1, _, hqall⟩ := hform q hqmem hqcond.1 hqcond.2
  rw [hp1, hq1] at hkey
  exact keyLess_child_strLt hpall hqall hkey

/-- `C1` amended: for a directory `D` stored in a `keyLess`-sorted index
whose direct-child keys are well formed, `Entries(D)` resolves as
follows. When `D`'s node is a `dirNode`, the `DirIndex` fast path
returns `dirNode.entries` as accumulated — insertion (archive) order,
which need not be sorted and need not match the fallback. When it is
not, the range-scan fallback returns exactly the direct children of `D`
present in the index, in index order, and their base names are strictly
ascending — sorted by child name regardless of the order in which the
children were added. -/
theorem entries_fast_and_scan (heap : Heap) (st : Store) (D : String) (nid : Nat)
    (hsort : List.Pairwise (fun p q : String × Nat => keyLess p.1 q.1 = true) st)
    (hget : storeGet st D = some nid)
    (hdirmode : modeIsDir (heapGet heap nid).stat.mode = true)
    (hform : childKeysWF st D) :
    ((heapGet heap nid).isDirNode = true →
        storeEntries heap st D = some (dirEntries heap (heapGet heap nid)))
    ∧ ((heapGet heap nid).isDirNode = false →
        storeEntries heap st D = some ((childPairs st D).map (fun p => heapGet heap p.2))
        ∧ List.Pairwise (fun a b => strLt a b = true)
            ((childPairs st D).map (fun p => baseNameB p.1))) := by
  constructor
  · intro hfast
    unfold storeEntries
    rw [hget]
    simp only [hdirmode, Bool.not_true, Bool.false_eq_true, if_false, hfast, if_true]
  · intro hslow
    refine ⟨?_, childPairs_names_sorted st D hsort hform⟩
    unfold storeEntries
    rw [hget]
    simp only [hdirmode, Bool.not_true, Bool.false_eq_true, if_false, hslow]
    exact congrArg some (scanEntries_children heap st D hform)

/-- A populated index whose root node carries directory mode but is not
a `dirNode` (as in the store's own unit tests), forcing the range-scan
fallback. -/
def fbHeap : Heap :=
  [{ name := "", stat := rootStat 0 0, isDirNode := false, entries := [] },
   { name := "a",
     stat := { mode := 420, owner := ⟨0, 0⟩, atime := 0, mtime := 0, ctime := 0,
               ino := 512, size := 1 },
     isDirNode := false, entries := [] },
   { name := "b",
     stat := { mode := 420, owner := ⟨0, 0⟩, atime := 0, mtime := 0, ctime := 0,
               ino := 1536, size := 1 },
     isDirNode := false, entries := [] }]

/-- The sorted store over `fbHeap`: root, `/a`, `/b`. -/
def fbStore : Store := [(("/"), 0), (("/a"), 1), (("/b"), 2)]

/-- Witness for the amended `C1`: the fallback on the concrete sorted
store returns `a` then `b`, and their names are strictly ascending. -/
theorem entries_fast_and_scan_witness :
    storeEntries fbHeap fbStore ("/") = some [heapGet fbHeap 1, heapGet fbHeap 2]
    ∧ List.Pairwise (fun a b => strLt a b = true) [("a"), ("b")] := by
  have h := entries_fast_and_scan fbHeap fbStore ("/") 0 (by decide) rfl (by decide)
    (by decide)
  have h2 := h.2 (by rfl)
  refine ⟨h2.1.trans (by rfl), ?_⟩
  have heq : (childPairs fbStore ("/")).map (fun p => baseNameB p.1) = [("a"), ("b")] := by
    rfl
  exact heq ▸ h2.2

end Tarfs
